import Mathlib

/-!
Verification of the Go-AI repository's search/evaluation support code.

The Go rules engine (`gym_go`) is external to the repository; it is modelled
as an abstract interface `GoIface` of pure functions, exactly the operations
`get_qvals` in `go_ai/models.py` consumes (`get_valid_moves`,
`get_next_state`, `get_turn`, `get_canonical_form`, `get_action_size`).
Numpy arrays are modelled as Lean lists; numpy float entries as rationals
(reals where a transcendental function is involved); a Python function that
can raise is modelled as an `Option`/`Except` returning function, `none`
or `.error` marking the raise.
-/

namespace GoAI

/-- Interface to the external Go rules engine, as consumed by
`go_ai/models.py`.  `validMoves s` is the legality mask over the action
space, `nextState s a` applies action `a`, `getTurn` and `canonicalForm`
normalize perspective, `actionSize` is the size of the action space. -/
structure GoIface (S : Type) where
  actionSize : S → Nat
  validMoves : S → List Bool
  nextState : S → Nat → S
  getTurn : S → Nat
  canonicalForm : S → Nat → S

variable {S : Type}

/-- Model of `np.argwhere(valid_moves > 0).flatten()`: the ascending list of
indices at which the mask is set. -/
def argwherePos (vm : List Bool) : List Nat :=
  (List.range vm.length).filter (fun i => vm.getD i false)

/-- The canonical form of the state reached by playing `m` from `s`
(`get_next_state` then `get_canonical_form` at the new turn), as computed
inside `get_qvals` in `go_ai/models.py`. -/
def canonNext (G : GoIface S) (s : S) (m : Nat) : S :=
  G.canonicalForm (G.nextState s m) (G.getTurn (G.nextState s m))

/-- First loop of `get_qvals`: the batch of canonical next states over all
valid moves of all input states, in state-major, ascending-action order. -/
def canonicalNextStates (G : GoIface S) (states : List S) : List S :=
  states.flatMap (fun s => (argwherePos (G.validMoves s)).map (canonNext G s))

/-- Inner loop of the second pass of `get_qvals`: `for move in
range(action_size)`, emitting `-canonical_next_vals[curr_idx]` (and bumping
`curr_idx`) at valid moves and `0` at invalid ones.  The first argument is
the number of loop iterations left, the second the current `move` index.
`none` models an out-of-range numpy index (an exception). -/
def qvalsRow : Nat → Nat → List Bool → List ℚ → Nat → Option (List ℚ × Nat)
  | 0, _, _, _, curr => some ([], curr)
  | n + 1, move, vm, vals, curr =>
    if vm.getD move false then
      match vals[curr]? with
      | none => none
      | some v =>
        match qvalsRow n (move + 1) vm vals (curr + 1) with
        | none => none
        | some (qs, c) => some ((-v) :: qs, c)
    else
      match qvalsRow n (move + 1) vm vals curr with
      | none => none
      | some (qs, c) => some ((0 : ℚ) :: qs, c)

/-- Outer loop of the second pass of `get_qvals`: one `Qs` row per state,
threading `curr_idx` through the whole batch. -/
def qvalsAll (G : GoIface S) : List S → List ℚ → Nat → Option (List (List ℚ) × Nat)
  | [], _, curr => some ([], curr)
  | s :: ss, vals, curr =>
    match qvalsRow (G.actionSize s) 0 (G.validMoves s) vals curr with
    | none => none
    | some (qs, c) =>
      match qvalsAll G ss vals c with
      | none => none
      | some (rows, c2) => some (qs :: rows, c2)

/-- `get_qvals` from `go_ai/models.py`: gather the canonical next states of
all valid moves, evaluate them in one batched `val_func` call, then fill a
`batch_size x action_size` table with the negated values at valid moves and
`0` at invalid ones.  `none` models a raised exception (an index error or
the final `assert curr_idx == len(canonical_next_vals)`). -/
def get_qvals (G : GoIface S) (vf : List S → List ℚ) (states : List S) :
    Option (List (List ℚ)) :=
  let vals := vf (canonicalNextStates G states)
  match qvalsAll G states vals 0 with
  | none => none
  | some (rows, curr) => if curr = vals.length then some rows else none

/-- The valid move indices among the `n` actions starting at `move`. -/
def validIn (n move : Nat) (vm : List Bool) : List Nat :=
  (List.range' move n).filter (fun i => vm.getD i false)

/-- Intended content of one `Qs` row of `get_qvals`: at each action `a`,
`-g a` if `a` is valid and `0` otherwise, where `g a` is the value of the
canonical state reached by playing `a`. -/
def rowOf (n move : Nat) (vm : List Bool) (g : Nat → ℚ) : List ℚ :=
  (List.range' move n).map (fun a => if vm.getD a false then -(g a) else 0)

/-- Intended content of the `Qs` row of state `s` in `get_qvals`. -/
def specRow (G : GoIface S) (f : S → ℚ) (s : S) : List ℚ :=
  rowOf (G.actionSize s) 0 (G.validMoves s) (fun m => f (canonNext G s m))

/-- The values the batched `val_func` call contributes for one state `s`,
when `val_func` acts pointwise as `f`. -/
def perStateVals (G : GoIface S) (f : S → ℚ) (s : S) : List ℚ :=
  (argwherePos (G.validMoves s)).map (fun m => f (canonNext G s m))

lemma validIn_zero (move : Nat) (vm : List Bool) : validIn 0 move vm = [] := by
  simp [validIn, List.range']

lemma validIn_succ (n move : Nat) (vm : List Bool) :
    validIn (n + 1) move vm =
      if vm.getD move false then move :: validIn n (move + 1) vm
      else validIn n (move + 1) vm := by
  by_cases hv : vm.getD move false
  · have hv' : vm[move]?.getD false = true := by
      rw [← List.getD_eq_getElem?_getD]; exact hv
    simp [validIn, List.range'_succ, List.filter_cons, hv, hv']
  · have hv' : vm[move]?.getD false = false := by
      rw [← List.getD_eq_getElem?_getD]; simpa using hv
    simp [validIn, List.range'_succ, List.filter_cons, hv, hv']

lemma rowOf_zero (move : Nat) (vm : List Bool) (g : Nat → ℚ) :
    rowOf 0 move vm g = [] := by
  simp [rowOf, List.range']

lemma rowOf_succ (n move : Nat) (vm : List Bool) (g : Nat → ℚ) :
    rowOf (n + 1) move vm g =
      (if vm.getD move false then -(g move) else 0) :: rowOf n (move + 1) vm g := by
  simp [rowOf, List.range'_succ]

/-- When the value list holds, from position `curr` on, exactly the images
under `g` of the valid moves still to be visited, the row loop succeeds,
produces the intended row and advances `curr_idx` by the number of valid
moves consumed. -/
lemma qvalsRow_eq (g : Nat → ℚ) :
    ∀ (n move curr : Nat) (vm : List Bool) (vals rest : List ℚ),
      vals.drop curr = (validIn n move vm).map g ++ rest →
      qvalsRow n move vm vals curr =
        some (rowOf n move vm g, curr + (validIn n move vm).length) := by
  intro n
  induction n with
  | zero =>
    intro move curr vm vals rest _
    simp [qvalsRow, rowOf_zero, validIn_zero]
  | succ n ih =>
    intro move curr vm vals rest h
    by_cases hv : vm.getD move false
    · have hval : validIn (n + 1) move vm = move :: validIn n (move + 1) vm := by
        rw [validIn_succ, if_pos hv]
      rw [hval] at h
      simp only [List.map_cons, List.cons_append] at h
      have h0 : vals[curr]? = some (g move) := by
        have hd := List.getElem?_drop vals curr 0
        rw [h] at hd
        simpa using hd.symm
      have h1 : vals.drop (curr + 1) = (validIn n (move + 1) vm).map g ++ rest := by
        have ht := List.tail_drop vals curr
        rw [h] at ht
        simpa using ht.symm
      have hrec := ih (move + 1) (curr + 1) vm vals rest h1
      have : qvalsRow (n + 1) move vm vals curr =
          some ((-(g move)) :: rowOf n (move + 1) vm g,
            curr + 1 + (validIn n (move + 1) vm).length) := by
        simp only [qvalsRow, hv, if_true, h0, hrec]
      rw [this, hval, rowOf_succ, if_pos hv]
      have : curr + (validIn n (move + 1) vm).length.succ =
          curr + 1 + (validIn n (move + 1) vm).length := by omega
      simp [this]
    · have hval : validIn (n + 1) move vm = validIn n (move + 1) vm := by
        rw [validIn_succ, if_neg hv]
      rw [hval] at h
      have hrec := ih (move + 1) curr vm vals rest h
      have hvb : vm.getD move false = false := by simpa using hv
      have : qvalsRow (n + 1) move vm vals curr =
          some ((0 : ℚ) :: rowOf n (move + 1) vm g,
            curr + (validIn n (move + 1) vm).length) := by
        simp only [qvalsRow, hvb, Bool.false_eq_true, if_false, hrec]
      rw [this, hval, rowOf_succ, if_neg hv]

/-- As long as the value list is long enough, the row loop succeeds and
advances `curr_idx` by the number of valid moves consumed (regardless of
the concrete values). -/
lemma qvalsRow_some :
    ∀ (n move curr : Nat) (vm : List Bool) (vals : List ℚ),
      curr + (validIn n move vm).length ≤ vals.length →
      ∃ qs, qvalsRow n move vm vals curr =
        some (qs, curr + (validIn n move vm).length) := by
  intro n
  induction n with
  | zero =>
    intro move curr vm vals _
    exact ⟨[], by simp [qvalsRow, validIn_zero]⟩
  | succ n ih =>
    intro move curr vm vals hlen
    by_cases hv : vm.getD move false
    · have hval : validIn (n + 1) move vm = move :: validIn n (move + 1) vm := by
        rw [validIn_succ, if_pos hv]
      rw [hval] at hlen ⊢
      simp only [List.length_cons] at hlen ⊢
      have hcurr : curr < vals.length := by omega
      have h0 : vals[curr]? = some vals[curr] := List.getElem?_eq_getElem hcurr
      obtain ⟨qs, hqs⟩ := ih (move + 1) (curr + 1) vm vals (by omega)
      refine ⟨(-vals[curr]) :: qs, ?_⟩
      have : qvalsRow (n + 1) move vm vals curr =
          some ((-vals[curr]) :: qs, curr + 1 + (validIn n (move + 1) vm).length) := by
        simp only [qvalsRow, hv, if_true, h0, hqs]
      rw [this]
      have : curr + (validIn n (move + 1) vm).length.succ =
          curr + 1 + (validIn n (move + 1) vm).length := by omega
      simp [this]
    · have hval : validIn (n + 1) move vm = validIn n (move + 1) vm := by
        rw [validIn_succ, if_neg hv]
      rw [hval] at hlen ⊢
      obtain ⟨qs, hqs⟩ := ih (move + 1) curr vm vals hlen
      refine ⟨(0 : ℚ) :: qs, ?_⟩
      have hvb : vm.getD move false = false := by simpa using hv
      simp only [qvalsRow, hvb, Bool.false_eq_true, if_false, hqs]

lemma validIn_zero_eq (n : Nat) (vm : List Bool) (h : vm.length = n) :
    validIn n 0 vm = argwherePos vm := by
  subst h
  simp [validIn, argwherePos, List.range_eq_range']

lemma perStateVals_eq (G : GoIface S) (f : S → ℚ) (s : S)
    (h : (G.validMoves s).length = G.actionSize s) :
    perStateVals G f s =
      (validIn (G.actionSize s) 0 (G.validMoves s)).map (fun m => f (canonNext G s m)) := by
  rw [validIn_zero_eq _ _ h]
  rfl

/-- When the value list holds, from position `curr` on, exactly the images
under `f` of all canonical next states of the remaining batch, the outer
loop succeeds, produces the intended rows and advances `curr_idx` by the
total number of valid moves. -/
lemma qvalsAll_eq (G : GoIface S) (f : S → ℚ) :
    ∀ (ss : List S) (vals rest : List ℚ) (curr : Nat),
      (∀ s ∈ ss, (G.validMoves s).length = G.actionSize s) →
      vals.drop curr = ((ss.map (perStateVals G f)).flatten) ++ rest →
      qvalsAll G ss vals curr =
        some (ss.map (specRow G f), curr + ((ss.map (perStateVals G f)).flatten).length) := by
  intro ss
  induction ss with
  | nil =>
    intro vals rest curr _ _
    simp [qvalsAll]
  | cons s ss ih =>
    intro vals rest curr hlen h
    have hs : (G.validMoves s).length = G.actionSize s := hlen s (by simp)
    have hL : (validIn (G.actionSize s) 0 (G.validMoves s)).length =
        (perStateVals G f s).length := by
      rw [perStateVals_eq G f s hs, List.length_map]
    have h' : vals.drop curr =
        (validIn (G.actionSize s) 0 (G.validMoves s)).map (fun m => f (canonNext G s m)) ++
          ((ss.map (perStateVals G f)).flatten ++ rest) := by
      rw [← perStateVals_eq G f s hs, ← List.append_assoc]
      simpa using h
    have hrow := qvalsRow_eq (fun m => f (canonNext G s m)) (G.actionSize s) 0 curr
      (G.validMoves s) vals ((ss.map (perStateVals G f)).flatten ++ rest) h'
    have hdrop2 : vals.drop (curr + (validIn (G.actionSize s) 0 (G.validMoves s)).length) =
        (ss.map (perStateVals G f)).flatten ++ rest := by
      rw [← List.drop_drop, h, hL]
      simp [List.drop_left]
    have hrec := ih vals rest (curr + (validIn (G.actionSize s) 0 (G.validMoves s)).length)
      (fun t ht => hlen t (by simp [ht])) hdrop2
    have hfin : qvalsAll G (s :: ss) vals curr =
        some (rowOf (G.actionSize s) 0 (G.validMoves s) (fun m => f (canonNext G s m)) ::
            ss.map (specRow G f),
          curr + (validIn (G.actionSize s) 0 (G.validMoves s)).length +
            ((ss.map (perStateVals G f)).flatten).length) := by
      simp only [qvalsAll, hrow, hrec]
    simp only [List.map_cons, List.flatten_cons, List.length_append]
    rw [hfin]
    have h2 : curr + (validIn (G.actionSize s) 0 (G.validMoves s)).length +
        ((ss.map (perStateVals G f)).flatten).length =
        curr + ((perStateVals G f s).length + ((ss.map (perStateVals G f)).flatten).length) := by
      rw [hL]
      omega
    rw [h2]
    rfl

/-- As long as the value list is long enough, the outer loop succeeds and
its final `curr_idx` is the initial one plus the total number of valid
moves over the batch. -/
lemma qvalsAll_some (G : GoIface S) :
    ∀ (ss : List S) (vals : List ℚ) (curr : Nat),
      (∀ s ∈ ss, (G.validMoves s).length = G.actionSize s) →
      curr + (ss.map (fun s => (argwherePos (G.validMoves s)).length)).sum ≤ vals.length →
      ∃ rows, qvalsAll G ss vals curr =
        some (rows, curr + (ss.map (fun s => (argwherePos (G.validMoves s)).length)).sum) := by
  intro ss
  induction ss with
  | nil =>
    intro vals curr _ _
    exact ⟨[], by simp [qvalsAll]⟩
  | cons s ss ih =>
    intro vals curr hlen hbound
    have hs : (G.validMoves s).length = G.actionSize s := hlen s (by simp)
    have hv : validIn (G.actionSize s) 0 (G.validMoves s) = argwherePos (G.validMoves s) :=
      validIn_zero_eq _ _ hs
    simp only [List.map_cons, List.sum_cons] at hbound
    obtain ⟨qs, hqs⟩ := qvalsRow_some (G.actionSize s) 0 curr (G.validMoves s) vals
      (by rw [hv]; omega)
    rw [hv] at hqs
    obtain ⟨rows, hrows⟩ := ih vals (curr + (argwherePos (G.validMoves s)).length)
      (fun t ht => hlen t (by simp [ht])) (by omega)
    refine ⟨qs :: rows, ?_⟩
    have hfin : qvalsAll G (s :: ss) vals curr =
        some (qs :: rows,
          curr + (argwherePos (G.validMoves s)).length +
            (ss.map (fun s => (argwherePos (G.validMoves s)).length)).sum) := by
      simp only [qvalsAll, hqs, hrows]
    rw [hfin]
    have : curr + ((argwherePos (G.validMoves s)).length +
          (ss.map (fun s => (argwherePos (G.validMoves s)).length)).sum) =
        curr + (argwherePos (G.validMoves s)).length +
          (ss.map (fun s => (argwherePos (G.validMoves s)).length)).sum := by
      omega
    simp [this]

lemma map_canonicalNextStates (G : GoIface S) (f : S → ℚ) (states : List S) :
    (canonicalNextStates G states).map f = (states.map (perStateVals G f)).flatten := by
  induction states with
  | nil => rfl
  | cons s ss ih =>
    simp only [canonicalNextStates, List.flatMap_cons, List.map_append, List.map_cons,
      List.flatten_cons] at *
    rw [ih]
    simp [perStateVals, List.map_map]

lemma canonicalNextStates_length (G : GoIface S) (states : List S) :
    (canonicalNextStates G states).length =
      (states.map (fun s => (argwherePos (G.validMoves s)).length)).sum := by
  induction states with
  | nil => rfl
  | cons s ss ih =>
    simp only [canonicalNextStates, List.flatMap_cons, List.length_append, List.length_map,
      List.map_cons, List.sum_cons] at *
    rw [ih]

lemma argwherePos_length (vm : List Bool) :
    (argwherePos vm).length = (vm.filter (fun b => b)).length := by
  induction vm with
  | nil => rfl
  | cons b t ih =>
    by_cases hb : b
    · subst hb
      simp [argwherePos, List.range_succ_eq_map, List.filter_cons, List.filter_map,
        Function.comp_def, Nat.succ_eq_add_one, List.getElem?_cons_succ,
        List.getElem?_cons_zero] at *
      exact ih
    · simp at hb
      subst hb
      simp [argwherePos, List.range_succ_eq_map, List.filter_cons, List.filter_map,
        Function.comp_def, Nat.succ_eq_add_one, List.getElem?_cons_succ,
        List.getElem?_cons_zero] at *
      exact ih

lemma rowOf_length (n move : Nat) (vm : List Bool) (g : Nat → ℚ) :
    (rowOf n move vm g).length = n := by
  simp [rowOf]

lemma rowOf_getD (n : Nat) (vm : List Bool) (g : Nat → ℚ) (a : Nat) (h : a < n) :
    (rowOf n 0 vm g).getD a 0 = if vm.getD a false then -(g a) else 0 := by
  have hlt : a < (rowOf n 0 vm g).length := by rw [rowOf_length]; exact h
  rw [List.getD_eq_getElem _ _ hlt]
  simp [rowOf, List.getElem_range']

/-- When `val_func` acts pointwise as `f` and the legality masks have the
size of the action space, `get_qvals` succeeds and returns exactly the
intended table of rows. -/
lemma get_qvals_eq (G : GoIface S) (f : S → ℚ) (vf : List S → List ℚ) (states : List S)
    (hvf : ∀ xs, vf xs = xs.map f)
    (hlen : ∀ s ∈ states, (G.validMoves s).length = G.actionSize s) :
    get_qvals G vf states = some (states.map (specRow G f)) := by
  have hvals : vf (canonicalNextStates G states) = (states.map (perStateVals G f)).flatten := by
    rw [hvf, map_canonicalNextStates]
  have h := qvalsAll_eq G f states (vf (canonicalNextStates G states)) [] 0 hlen
    (by rw [hvals]; simp)
  unfold get_qvals
  dsimp only
  rw [h]
  simp [hvals]

/-- C1: for every batch of states and every value function acting pointwise
as `f`, `get_qvals` returns one row per state, sized by the action space, in
which the entry at every valid action `a` is the negation of `f` applied to
the canonical form of the state reached by playing `a` (one ply of sign
alternation from the mover's perspective), and the entry at every invalid
action is `0`. -/
theorem get_qvals_one_ply_negation {S : Type} (G : GoIface S) (f : S → ℚ)
    (vf : List S → List ℚ) (states : List S)
    (hvf : ∀ xs, vf xs = xs.map f)
    (hlen : ∀ s ∈ states, (G.validMoves s).length = G.actionSize s) :
    ∃ rows, get_qvals G vf states = some rows ∧
      rows.length = states.length ∧
      ∀ i, (hi : i < states.length) →
        (rows.getD i []).length = G.actionSize (states.get ⟨i, hi⟩) ∧
        ∀ a, a < G.actionSize (states.get ⟨i, hi⟩) →
          (rows.getD i []).getD a 0 =
            (if (G.validMoves (states.get ⟨i, hi⟩)).getD a false
             then -(f (canonNext G (states.get ⟨i, hi⟩) a))
             else 0) := by
  refine ⟨states.map (specRow G f), get_qvals_eq G f vf states hvf hlen, by simp, ?_⟩
  intro i hi
  have hi' : i < (states.map (specRow G f)).length := by simpa using hi
  have hrow : (states.map (specRow G f)).getD i [] = specRow G f (states.get ⟨i, hi⟩) := by
    rw [List.getD_eq_getElem _ _ hi']
    simp [List.getElem_map]
  rw [hrow]
  constructor
  · simp [specRow, rowOf_length]
  · intro a ha
    exact rowOf_getD _ _ _ a ha

/-- A one-state, two-action instance of the Go interface used to witness
the `get_qvals` theorems on concrete input. -/
def unitIface : GoIface Unit where
  actionSize := fun _ => 2
  validMoves := fun _ => [true, true]
  nextState := fun _ _ => ()
  getTurn := fun _ => 0
  canonicalForm := fun s _ => s

/-- A batched value function that is constantly `q` on every state. -/
def constVf (q : ℚ) : List Unit → List ℚ := fun xs => xs.map (fun _ => q)

/-- Witness for C1 at a concrete instance: one state, both actions valid,
value function constantly `1`. -/
theorem get_qvals_one_ply_negation_witness :
    (∀ xs : List Unit, constVf 1 xs = xs.map (fun _ => (1 : ℚ))) ∧
    (∀ s ∈ [()], ((unitIface.validMoves s).length = unitIface.actionSize s)) ∧
    (∃ rows, get_qvals unitIface (constVf 1) [()] = some rows ∧
      rows.length = ([()] : List Unit).length ∧
      ∀ i, (hi : i < ([()] : List Unit).length) →
        (rows.getD i []).length = unitIface.actionSize (([()] : List Unit).get ⟨i, hi⟩) ∧
        ∀ a, a < unitIface.actionSize (([()] : List Unit).get ⟨i, hi⟩) →
          (rows.getD i []).getD a 0 =
            (if (unitIface.validMoves (([()] : List Unit).get ⟨i, hi⟩)).getD a false
             then -((fun _ => (1 : ℚ)) (canonNext unitIface (([()] : List Unit).get ⟨i, hi⟩) a))
             else 0)) :=
  ⟨fun _ => rfl, by decide,
    get_qvals_one_ply_negation unitIface (fun _ => 1) (constVf 1) [()] (fun _ => rfl) (by decide)⟩

/-- C8: if the value function is pointwise bounded in `[-1, 1]`, every entry
of the table returned by `get_qvals` lies in `[-1, 1]` (so the range
assertions of `update_win_prediction` cannot fail on it). -/
theorem get_qvals_bounded {S : Type} (G : GoIface S) (f : S → ℚ)
    (vf : List S → List ℚ) (states : List S)
    (hvf : ∀ xs, vf xs = xs.map f)
    (hlen : ∀ s ∈ states, (G.validMoves s).length = G.actionSize s)
    (hbound : ∀ s, -1 ≤ f s ∧ f s ≤ 1) :
    ∀ rows, get_qvals G vf states = some rows →
      ∀ row ∈ rows, ∀ q ∈ row, -1 ≤ q ∧ q ≤ 1 := by
  intro rows hrows row hrow q hq
  rw [get_qvals_eq G f vf states hvf hlen] at hrows
  obtain rfl : states.map (specRow G f) = rows := by
    injection hrows
  obtain ⟨s, _, rfl⟩ := List.mem_map.mp hrow
  obtain ⟨a, _, rfl⟩ := List.mem_map.mp hq
  by_cases hv : (G.validMoves s).getD a false
  · rw [if_pos hv]
    have h1 := (hbound (canonNext G s a)).1
    have h2 := (hbound (canonNext G s a)).2
    constructor <;> linarith
  · rw [if_neg hv]
    norm_num

/-- Witness for C8 at a concrete instance: one state, both actions valid,
value function constantly `1`. -/
theorem get_qvals_bounded_witness :
    (∀ xs : List Unit, constVf 1 xs = xs.map (fun _ => (1 : ℚ))) ∧
    (∀ s ∈ [()], ((unitIface.validMoves s).length = unitIface.actionSize s)) ∧
    (∀ s : Unit, -1 ≤ (fun _ => (1 : ℚ)) s ∧ (fun _ => (1 : ℚ)) s ≤ 1) ∧
    (∀ rows, get_qvals unitIface (constVf 1) [()] = some rows →
      ∀ row ∈ rows, ∀ q ∈ row, -1 ≤ q ∧ q ≤ 1) :=
  ⟨fun _ => rfl, by decide, by intro s; constructor <;> norm_num,
    get_qvals_bounded unitIface (fun _ => 1) (constVf 1) [()] (fun _ => rfl) (by decide)
      (by intro s; constructor <;> norm_num)⟩

/-- C10: the number of canonical next states handed to the batched value
function equals the total number of valid moves over the input states, and
as long as the value function is length-preserving on that batch the second
pass consumes exactly all returned values, so `get_qvals` passes its final
`curr_idx == len(canonical_next_vals)` assertion and succeeds. -/
theorem get_qvals_consumes_all {S : Type} (G : GoIface S)
    (vf : List S → List ℚ) (states : List S)
    (hlen : ∀ s ∈ states, (G.validMoves s).length = G.actionSize s)
    (hvf : (vf (canonicalNextStates G states)).length = (canonicalNextStates G states).length) :
    (canonicalNextStates G states).length =
      (states.map (fun s => ((G.validMoves s).filter (fun b => b)).length)).sum ∧
    ∃ rows, get_qvals G vf states = some rows := by
  constructor
  · rw [canonicalNextStates_length]
    simp only [argwherePos_length]
  · obtain ⟨rows, h⟩ := qvalsAll_some G states (vf (canonicalNextStates G states)) 0 hlen
      (by rw [hvf, canonicalNextStates_length]; omega)
    refine ⟨rows, ?_⟩
    unfold get_qvals
    dsimp only
    rw [h]
    simp [hvf, canonicalNextStates_length]

/-- Witness for C10 at a concrete instance: one state, both actions valid,
value function constantly `1` (which maps lists pointwise, hence preserves
lengths). -/
theorem get_qvals_consumes_all_witness :
    (∀ s ∈ [()], ((unitIface.validMoves s).length = unitIface.actionSize s)) ∧
    ((constVf 1 (canonicalNextStates unitIface [()])).length =
      (canonicalNextStates unitIface [()]).length) ∧
    ((canonicalNextStates unitIface [()]).length =
      (([()] : List Unit).map
        (fun s => ((unitIface.validMoves s).filter (fun b => b)).length)).sum ∧
    ∃ rows, get_qvals unitIface (constVf 1) [()] = some rows) :=
  ⟨by decide, by simp [constVf],
    get_qvals_consumes_all unitIface (constVf 1) [()] (by decide) (by simp [constVf])⟩

/-- The most negative finite `float32`, the exact value of
`np.finfo(np.float32).min` used by `get_invalid_values`. -/
def float32_min : ℚ := -(2 ^ 128 - 2 ^ 104)

/-- `get_invalid_moves` from `go_ai/models.py` on one state of the batch:
the state's flattened invalid-move channel (`states[:, :, :, INVD_CHNL]`
reshaped to one row) with a `0` inserted at index `board_size ** 2`, the
trailing pass action. -/
def get_invalid_moves1 (invd : List ℚ) (board_size : Nat) : List ℚ :=
  List.insertIdx (board_size ^ 2) 0 invd

/-- `get_invalid_moves` over the whole batch. -/
def get_invalid_moves (states : List (List ℚ)) (board_size : Nat) : List (List ℚ) :=
  states.map (fun s => get_invalid_moves1 s board_size)

/-- `get_valid_moves` from `go_ai/models.py` on one state:
`1 - get_invalid_moves(states)`. -/
def get_valid_moves1 (invd : List ℚ) (board_size : Nat) : List ℚ :=
  (get_invalid_moves1 invd board_size).map (fun x => 1 - x)

/-- `get_valid_moves` over the whole batch. -/
def get_valid_moves (states : List (List ℚ)) (board_size : Nat) : List (List ℚ) :=
  states.map (fun s => get_valid_moves1 s board_size)

/-- `get_invalid_values` from `go_ai/models.py` on one state:
`np.finfo(np.float32).min * invalid_moves`. -/
def get_invalid_values1 (invd : List ℚ) (board_size : Nat) : List ℚ :=
  (get_invalid_moves1 invd board_size).map (fun x => float32_min * x)

lemma get_invalid_moves1_eq_append (invd : List ℚ) (board_size : Nat)
    (h : invd.length = board_size ^ 2) :
    get_invalid_moves1 invd board_size = invd ++ [0] := by
  rw [get_invalid_moves1, ← h, List.insertIdx_length_self]

/-- C3: on every state of a batch of the right shape, `get_invalid_moves`
returns a mask of length `board_size^2 + 1` whose entry at the trailing pass
index is `0`, so `get_valid_moves` marks the pass action as legal (`1`) in
every state. -/
theorem pass_always_valid (states : List (List ℚ)) (board_size : Nat)
    (hshape : ∀ s ∈ states, s.length = board_size ^ 2) :
    ∀ s ∈ states,
      (get_invalid_moves1 s board_size).length = board_size ^ 2 + 1 ∧
      (get_invalid_moves1 s board_size).getD (board_size ^ 2) 1 = 0 ∧
      (get_valid_moves1 s board_size).getD (board_size ^ 2) 0 = 1 := by
  intro s hs
  have h := hshape s hs
  have happ := get_invalid_moves1_eq_append s board_size h
  refine ⟨?_, ?_, ?_⟩
  · rw [happ]
    simp [h]
  · rw [happ, List.getD_append_right _ _ _ _ (by omega)]
    simp [h]
  · rw [get_valid_moves1, happ]
    have hlt : board_size ^ 2 < ((s ++ [(0 : ℚ)]).map (fun x => 1 - x)).length := by
      simp [h]
    rw [List.getD_eq_getElem _ _ hlt]
    rw [List.getElem_map]
    rw [List.getElem_concat_length _ _ _ (by omega)]
    norm_num

/-- Witness for C3: a 1×1 board whose single move is marked invalid. -/
theorem pass_always_valid_witness :
    (∀ s ∈ [[(1 : ℚ)]], s.length = 1 ^ 2) ∧
    (∀ s ∈ [[(1 : ℚ)]],
      (get_invalid_moves1 s 1).length = 1 ^ 2 + 1 ∧
      (get_invalid_moves1 s 1).getD (1 ^ 2) 1 = 0 ∧
      (get_valid_moves1 s 1).getD (1 ^ 2) 0 = 1) :=
  ⟨by decide, pass_always_valid [[(1 : ℚ)]] 1 (by decide)⟩

/-- `action_1d_to_2d` from `go_ai/metrics.py`: converts a 1D action to 2D
board coordinates, or `none` (Python `None`) if it is the pass action. -/
def action_1d_to_2d (action_1d board_width : Nat) : Option (Nat × Nat) :=
  if action_1d = board_width ^ 2 then none
  else some (action_1d / board_width, action_1d % board_width)

/-- C9: `action_1d_to_2d` returns `none` exactly at the pass action
`board_width^2`, and is a left inverse of the row-major encoding
`(r, c) ↦ r * w + c` on non-pass actions. -/
theorem action_1d_to_2d_correct (action_1d board_width : Nat) :
    (action_1d_to_2d action_1d board_width = none ↔ action_1d = board_width ^ 2) ∧
    (∀ r c, r < board_width → c < board_width →
      action_1d_to_2d (r * board_width + c) board_width = some (r, c)) := by
  constructor
  · by_cases h : action_1d = board_width ^ 2 <;> simp [action_1d_to_2d, h]
  · intro r c hr hc
    have hw : 0 < board_width := by omega
    have hlt : r * board_width + c < board_width ^ 2 := by
      have h1 : r * board_width + c < (r + 1) * board_width := by
        rw [add_mul]
        omega
      have h2 : (r + 1) * board_width ≤ board_width * board_width :=
        Nat.mul_le_mul_right _ (by omega)
      rw [pow_two]
      omega
    have hdiv : (r * board_width + c) / board_width = r := by
      rw [mul_comm, Nat.mul_add_div hw, Nat.div_eq_of_lt hc]
      omega
    have hmod : (r * board_width + c) % board_width = c := by
      rw [mul_comm, Nat.mul_add_mod]
      exact Nat.mod_eq_of_lt hc
    rw [action_1d_to_2d, if_neg (by omega), hdiv, hmod]

/-- Witness for C9 at `w = 2`: the pass action `4` maps to `none` and the
encoded coordinate `(1, 1)` maps back to itself. -/
theorem action_1d_to_2d_correct_witness :
    (action_1d_to_2d 4 2 = none ↔ 4 = 2 ^ 2) ∧
    (1 < 2 ∧ 1 < 2 ∧ action_1d_to_2d (1 * 2 + 1) 2 = some (1, 1)) :=
  ⟨(action_1d_to_2d_correct 4 2).1,
    by decide, by decide, (action_1d_to_2d_correct 0 2).2 1 1 (by decide) (by decide)⟩

/-- Minimum of a list of rationals (`np.min`), with junk value `0` on the
empty list; `plot_move_distr` only applies it to nonempty lists. -/
def listMin : List ℚ → ℚ
  | [] => 0
  | x :: t => t.foldl min x

/-- Maximum of a list of rationals (`np.max`), with junk value `0` on the
empty list; `plot_move_distr` only applies it to nonempty lists. -/
def listMax : List ℚ → ℚ
  | [] => 0
  | x :: t => t.foldl max x

/-- The numeric content of `plot_move_distr` from `go_ai/metrics.py`: the
low/high/pass values it formats into the plot title.  `valid_values` models
`np.extract(valid_moves[:-1] == 1, move_distr[:-1])`; `none` models the
index error of `move_distr[-1]` on an empty distribution.  NaN entries do
not exist in the rational model (the claim assumes a NaN-free
distribution, so the `assert` on `np.isnan` cannot fire). -/
def plotMoveDistrStats (move_distr valid_moves : List ℚ) : Option (ℚ × ℚ × ℚ) :=
  match move_distr.getLast? with
  | none => none
  | some pass_val =>
    let valid_values := ((valid_moves.dropLast).zip (move_distr.dropLast)).filterMap
      (fun p => if p.1 = 1 then some p.2 else none)
    some (if 0 < valid_values.length then listMin valid_values else 0,
          if 0 < valid_values.length then listMax valid_values else 0,
          pass_val)

/-- C7: on a mask whose only legal entry is the pass action,
`plot_move_distr` completes without error, replacing the minimum and
maximum over the empty set of valid board-move values by `0`. -/
theorem plot_move_distr_pass_only (move_distr valid_moves : List ℚ)
    (hne : move_distr ≠ [])
    (_hpass : valid_moves.getLast? = some 1)
    (hboard : ∀ v ∈ valid_moves.dropLast, v = 0) :
    ∃ pass_val, move_distr.getLast? = some pass_val ∧
      plotMoveDistrStats move_distr valid_moves = some (0, 0, pass_val) := by
  obtain ⟨pass_val, hlast⟩ : ∃ p, move_distr.getLast? = some p := by
    cases h : move_distr.getLast? with
    | none => exact absurd (List.getLast?_eq_none_iff.mp h) hne
    | some p => exact ⟨p, rfl⟩
  refine ⟨pass_val, hlast, ?_⟩
  have hempty : ((valid_moves.dropLast).zip (move_distr.dropLast)).filterMap
      (fun p => if p.1 = 1 then some p.2 else none) = [] := by
    rw [List.filterMap_eq_nil_iff]
    intro p hp
    have h1 : p.1 ∈ valid_moves.dropLast := by
      obtain ⟨a, b⟩ := p
      exact (List.of_mem_zip hp).1
    rw [hboard p.1 h1]
    norm_num
  rw [plotMoveDistrStats, hlast]
  simp [hempty]

/-- Witness for C7: a two-entry distribution whose mask allows only the
pass. -/
theorem plot_move_distr_pass_only_witness :
    (([(1 : ℚ)/2, 1/2] : List ℚ) ≠ [] ∧
      ([(0 : ℚ), 1] : List ℚ).getLast? = some 1 ∧
      ∀ v ∈ ([(0 : ℚ), 1] : List ℚ).dropLast, v = 0) ∧
    (∃ pass_val, ([(1 : ℚ)/2, 1/2] : List ℚ).getLast? = some pass_val ∧
      plotMoveDistrStats [(1 : ℚ)/2, 1/2] [(0 : ℚ), 1] = some (0, 0, pass_val)) :=
  ⟨⟨by decide, by decide, by decide⟩,
    plot_move_distr_pass_only [(1 : ℚ)/2, 1/2] [(0 : ℚ), 1] (by decide) (by decide) (by decide)⟩

/-- The model descriptor built by `create_agent` in `utils.py` before any
checkpoint is loaded; `noModel` is Python's `model = None`. -/
inductive ModelDesc
  | valueNet (boardsize resblocks : Nat)
  | actorCriticNet (boardsize : Nat)
  | noModel
deriving DecidableEq

/-- The policy built by `create_agent` in `utils.py`. -/
inductive PolicyDesc
  | mctsPolicy (mcts : Nat) (temp tempsteps : ℚ)
  | acPolicy
  | mctsAcPolicy (branches depth : Nat)
  | randPolicy
  | greedyPolicy
  | humanPolicy
deriving DecidableEq

/-- `create_agent` from `utils.py` (the construction dispatch on
`args.baseagent if use_base else args.agent`): `.error` models the
`raise Exception("Unknown agent argument", agent)`, which fires before any
model or policy is built. -/
def create_agent (agent baseagent : String) (use_base : Bool)
    (boardsize resblocks mcts : Nat) (temp tempsteps : ℚ) (branches depth : Nat) :
    Except String (ModelDesc × PolicyDesc) :=
  let a := if use_base then baseagent else agent
  if a = "mcts" then .ok (.valueNet boardsize resblocks, .mctsPolicy mcts temp tempsteps)
  else if a = "ac" then .ok (.actorCriticNet boardsize, .acPolicy)
  else if a = "mcts-ac" then .ok (.actorCriticNet boardsize, .mctsAcPolicy branches depth)
  else if a = "rand" then .ok (.noModel, .randPolicy)
  else if a = "greedy" then .ok (.noModel, .greedyPolicy)
  else if a = "human" then .ok (.noModel, .humanPolicy)
  else .error "Unknown agent argument"

/-- The agent strings `create_agent` recognizes. -/
def recognizedAgents : List String := ["mcts", "ac", "mcts-ac", "rand", "greedy", "human"]

/-- The mode dispatch at the top of `state_responses_helper` in
`go_ai/metrics.py`: `.error` models `raise Exception("Unknown policy
mode")`, which fires before any model is loaded or evaluated. -/
def responseMode (mode : String) : Except String Unit :=
  if mode = "monte_carlo" then .ok ()
  else if mode = "qtemp" then .ok ()
  else .error "Unknown policy mode"

/-- The mode strings `state_responses_helper` recognizes. -/
def recognizedModes : List String := ["monte_carlo", "qtemp"]

/-- C6: `create_agent` fails with the unknown-agent exception exactly when
the selected agent string is outside the recognized set (so no model is
built in that case and no such exception is raised for recognized
strings), and likewise for the policy-mode dispatch of
`state_responses_helper`. -/
theorem unknown_agent_fails_fast (agent baseagent : String) (use_base : Bool)
    (boardsize resblocks mcts : Nat) (temp tempsteps : ℚ) (branches depth : Nat)
    (mode : String) :
    ((create_agent agent baseagent use_base boardsize resblocks mcts temp tempsteps
        branches depth = Except.error "Unknown agent argument") ↔
      (if use_base then baseagent else agent) ∉ recognizedAgents) ∧
    ((responseMode mode = Except.error "Unknown policy mode") ↔ mode ∉ recognizedModes) := by
  constructor
  · unfold create_agent recognizedAgents
    generalize (if use_base then baseagent else agent) = a
    dsimp only
    split_ifs with h1 h2 h3 h4 h5 h6 <;> simp_all
  · unfold responseMode recognizedModes
    split_ifs with h1 h2 <;> simp_all

/-- The softmax layer at the end of the actor head of `make_actor_critic`
in `go_ai/models.py`, over exact reals. -/
noncomputable def softmax (xs : List ℝ) : List ℝ :=
  xs.map (fun x => Real.exp x / (xs.map Real.exp).sum)

/-- The actor head of `make_actor_critic` after its final dense layer: the
`invalid_values` mask from `get_invalid_values` is added to the logits and
the result is passed through softmax. -/
noncomputable def actorDistr (logits : List ℝ) (invd : List ℚ) (board_size : Nat) : List ℝ :=
  softmax (List.zipWith (fun x v => x + v) logits
    ((get_invalid_values1 invd board_size).map (fun q : ℚ => (q : ℝ))))

lemma sum_map_exp_pos (xs : List ℝ) (h : xs ≠ []) : 0 < (xs.map Real.exp).sum := by
  apply List.sum_pos
  · intro x hx
    obtain ⟨y, _, rfl⟩ := List.mem_map.mp hx
    exact Real.exp_pos y
  · simpa using h

lemma softmax_sum (xs : List ℝ) (h : xs ≠ []) : (softmax xs).sum = 1 := by
  unfold softmax
  have hD := sum_map_exp_pos xs h
  simp only [div_eq_mul_inv]
  rw [List.sum_map_mul_right]
  exact mul_inv_cancel₀ (ne_of_gt hD)

lemma softmax_getD (xs : List ℝ) (i : Nat) (h : i < xs.length) :
    (softmax xs).getD i 0 = Real.exp (xs.getD i 0) / (xs.map Real.exp).sum := by
  have h' : i < (softmax xs).length := by simp [softmax, h]
  rw [List.getD_eq_getElem _ _ h', List.getD_eq_getElem _ _ h]
  simp [softmax, List.getElem_map]

lemma softmax_le_exp_sub (xs : List ℝ) (i k : Nat) (hi : i < xs.length)
    (hk : k < xs.length) :
    (softmax xs).getD i 0 ≤ Real.exp (xs.getD i 0 - xs.getD k 0) := by
  rw [softmax_getD xs i hi, Real.exp_sub]
  have hmem : Real.exp (xs.getD k 0) ∈ xs.map Real.exp := by
    rw [List.getD_eq_getElem _ _ hk]
    exact List.mem_map_of_mem Real.exp (xs.getElem_mem hk)
  have hD : Real.exp (xs.getD k 0) ≤ (xs.map Real.exp).sum :=
    List.single_le_sum (fun x hx => by
      obtain ⟨y, _, rfl⟩ := List.mem_map.mp hx
      exact le_of_lt (Real.exp_pos y)) _ hmem
  gcongr


lemma getD_map_in {α β : Type} (f : α → β) (l : List α) (i : Nat) (d : β) (d' : α)
    (h : i < l.length) : (l.map f).getD i d = f (l.getD i d') := by
  rw [List.getD_eq_getElem _ _ (by simpa using h), List.getElem_map,
    List.getD_eq_getElem _ _ h]

lemma getD_zipWith_add (xs ys : List ℝ) (i : Nat) (hx : i < xs.length)
    (hy : i < ys.length) :
    (List.zipWith (fun x v => x + v) xs ys).getD i 0 = xs.getD i 0 + ys.getD i 0 := by
  have h : i < (List.zipWith (fun x v => x + v) xs ys).length := by
    rw [List.length_zipWith]
    omega
  rw [List.getD_eq_getElem _ _ h, List.getD_eq_getElem _ _ hx,
    List.getD_eq_getElem _ _ hy, List.getElem_zipWith]

/-- C2: the actor-head move distribution sums to 1 over the action space
including pass, and every move marked invalid in the state's invalid-move
channel gets at most `exp(logit + float32_min - pass_logit)` probability
mass (an astronomically small bound, `float32_min` being `-(2^128 -
2^104)`), because the mask from `get_invalid_values` is added to the
logits before the softmax while the always-valid pass keeps mask `0`. -/
theorem actor_distribution_masked (logits : List ℝ) (invd : List ℚ) (board_size : Nat)
    (hinvd : invd.length = board_size ^ 2)
    (hlog : logits.length = board_size ^ 2 + 1) :
    (actorDistr logits invd board_size).sum = 1 ∧
    ∀ i, i < board_size ^ 2 → invd.getD i 0 = 1 →
      (actorDistr logits invd board_size).getD i 0 ≤
        Real.exp (logits.getD i 0 + (float32_min : ℝ) -
          logits.getD (board_size ^ 2) 0) := by
  have happ : get_invalid_moves1 invd board_size = invd ++ [0] :=
    get_invalid_moves1_eq_append invd board_size hinvd
  have hvallen : (get_invalid_values1 invd board_size).length = board_size ^ 2 + 1 := by
    simp [get_invalid_values1, happ, hinvd]
  have hmasklen : ((get_invalid_values1 invd board_size).map
      (fun q : ℚ => (q : ℝ))).length = board_size ^ 2 + 1 := by
    simpa using hvallen
  have hmlen : (List.zipWith (fun x v => x + v) logits
      ((get_invalid_values1 invd board_size).map (fun q : ℚ => (q : ℝ)))).length =
      board_size ^ 2 + 1 := by
    rw [List.length_zipWith, hlog, hmasklen]
    omega
  have hmaskD : ∀ j, j < board_size ^ 2 + 1 →
      ((get_invalid_values1 invd board_size).map (fun q : ℚ => (q : ℝ))).getD j 0 =
        ((float32_min * ((invd ++ [0]).getD j 0) : ℚ) : ℝ) := by
    intro j hj
    rw [getD_map_in (fun q : ℚ => (q : ℝ)) _ j 0 0 (by omega)]
    rw [get_invalid_values1, getD_map_in _ _ j 0 0 (by rw [happ]; simp [hinvd]; omega)]
    rw [happ]
  constructor
  · apply softmax_sum
    apply List.ne_nil_of_length_pos
    rw [hmlen]
    omega
  · intro i hi hone
    have hm_i : (List.zipWith (fun x v => x + v) logits
        ((get_invalid_values1 invd board_size).map (fun q : ℚ => (q : ℝ)))).getD i 0 =
        logits.getD i 0 + (float32_min : ℝ) := by
      rw [getD_zipWith_add _ _ i (by omega) (by omega)]
      rw [hmaskD i (by omega)]
      rw [List.getD_append _ _ _ _ (by omega), hone]
      norm_num
    have hm_k : (List.zipWith (fun x v => x + v) logits
        ((get_invalid_values1 invd board_size).map (fun q : ℚ => (q : ℝ)))).getD
          (board_size ^ 2) 0 = logits.getD (board_size ^ 2) 0 := by
      rw [getD_zipWith_add _ _ (board_size ^ 2) (by omega) (by omega)]
      rw [hmaskD (board_size ^ 2) (by omega)]
      rw [List.getD_append_right _ _ _ _ (by omega), hinvd]
      norm_num
    have hle := softmax_le_exp_sub
      (List.zipWith (fun x v => x + v) logits
        ((get_invalid_values1 invd board_size).map (fun q : ℚ => (q : ℝ))))
      i (board_size ^ 2) (by omega) (by omega)
    rw [hm_i, hm_k] at hle
    exact hle

/-- Witness for C2: a 1×1 board whose single move is invalid, zero logits. -/
theorem actor_distribution_masked_witness :
    (([(1 : ℚ)] : List ℚ).length = 1 ^ 2 ∧ ([(0 : ℝ), 0] : List ℝ).length = 1 ^ 2 + 1) ∧
    ((actorDistr [(0 : ℝ), 0] [(1 : ℚ)] 1).sum = 1 ∧
      ∀ i, i < 1 ^ 2 → ([(1 : ℚ)] : List ℚ).getD i 0 = 1 →
        (actorDistr [(0 : ℝ), 0] [(1 : ℚ)] 1).getD i 0 ≤
          Real.exp (([(0 : ℝ), 0] : List ℝ).getD i 0 + (float32_min : ℝ) -
            ([(0 : ℝ), 0] : List ℝ).getD (1 ^ 2) 0)) :=
  ⟨⟨rfl, rfl⟩, actor_distribution_masked [(0 : ℝ), 0] [(1 : ℚ)] 1 rfl rfl⟩

/-- Modelled from the spec: the `go_ai.policies` package (the policy
wrapper and the baseline policies used by `test_policies.py`) is not under
`src/`.  This is the one-ply-lookahead Q-value row a greedy baseline
policy uses ("simple stateless functions over `validMoves`/one-ply
lookahead value", spec section 4.4): at each valid action the negated value
of the canonical next state, `0` at invalid actions. -/
def oneStepQs (G : GoIface S) (val : S → ℚ) (s : S) : List ℚ :=
  rowOf (G.actionSize s) 0 (G.validMoves s) (fun m => val (canonNext G s m))

/-- Insert into a list of `(score, payload)` pairs sorted by descending
score, keeping earlier elements first among equal scores. -/
def insertDesc {α : Type} (x : ℚ × α) : List (ℚ × α) → List (ℚ × α)
  | [] => [x]
  | y :: t => if y.1 ≤ x.1 then x :: y :: t else y :: insertDesc x t

/-- Sort a list of `(score, payload)` pairs by descending score. -/
def sortDesc {α : Type} (l : List (ℚ × α)) : List (ℚ × α) := l.foldr insertDesc []

/-- Modelled from the spec: the depth-limited, width-limited search value of
the MCTS value policy (spec section 4.3, "Depth-limited variant": explore
only to a fixed depth and a fixed branching factor per level — the best
`width` children by value — and aggregate via minimax with one sign flip
per ply).  With `width = 0` or `depth = 0` no children are explored and the
raw value function evaluates the state. -/
def searchVal (G : GoIface S) (val : S → ℚ) (width : Nat) : Nat → S → ℚ
  | 0, s => val s
  | depth + 1, s =>
    let children := (argwherePos (G.validMoves s)).map (canonNext G s)
    let scored := children.map (fun c => (-(val c), c))
    let best := (sortDesc scored).take width
    if best.isEmpty then val s
    else listMax (best.map (fun p => -(searchVal G val width depth p.2)))

/-- First index attaining the maximum of `f` over a list of candidate
actions (the spec's deterministic lowest-index tie-break); `0` on an empty
candidate list. -/
def argmaxFirst (f : Nat → ℚ) : List Nat → Nat
  | [] => 0
  | [a] => a
  | a :: b :: t =>
    let r := argmaxFirst f (b :: t)
    if f a < f r then r else a

/-- One-hot distribution over `n` actions, all mass on action `k`. -/
def oneHot (n k : Nat) : List ℚ :=
  (List.range n).map (fun i => if i = k then 1 else 0)

/-- Modelled from the spec: the greedy baseline policy `GREEDY_PI` at
temperature 0 — the deterministic one-hot distribution on the valid action
with the best one-ply lookahead Q-value, ties broken by lowest index. -/
def greedyPolicyDistr (G : GoIface S) (val : S → ℚ) (s : S) : List ℚ :=
  oneHot (G.actionSize s)
    (argmaxFirst (fun a => (oneStepQs G val s).getD a 0) (argwherePos (G.validMoves s)))

/-- Modelled from the spec: the Q-value row the MCTS value policy derives
from its depth/width-limited search, one `-searchVal` per valid action. -/
def mctsValueQs (G : GoIface S) (val : S → ℚ) (width depth : Nat) (s : S) : List ℚ :=
  rowOf (G.actionSize s) 0 (G.validMoves s)
    (fun m => searchVal G val width depth (canonNext G s m))

/-- Modelled from the spec: the MCTS value policy's action distribution at
temperature 0, argmax over its searched Q-values. -/
def mctsValuePolicyDistr (G : GoIface S) (val : S → ℚ) (width depth : Nat) (s : S) : List ℚ :=
  oneHot (G.actionSize s)
    (argmaxFirst (fun a => (mctsValueQs G val width depth s).getD a 0)
      (argwherePos (G.validMoves s)))

/-- C4: a zero-simulation (`width = 0`) MCTS value policy wrapping the same
value function as a greedy policy produces the identical action-probability
distribution as the greedy baseline on every state: with no branching
budget the search value degenerates to the raw value function, so both
policies rank actions by the same one-ply lookahead. -/
theorem zero_width_mcts_equals_greedy {S : Type} (G : GoIface S) (val : S → ℚ)
    (depth : Nat) (s : S) :
    mctsValuePolicyDistr G val 0 depth s = greedyPolicyDistr G val s := by
  have hsv : ∀ (d : Nat) (c : S), searchVal G val 0 d c = val c := by
    intro d c
    cases d with
    | zero => rfl
    | succ d => simp [searchVal]
  unfold mctsValuePolicyDistr greedyPolicyDistr mctsValueQs oneStepQs
  simp [hsv]

end GoAI
